import Mathlib

/-!
# Server log analyzer: the log scanner and the chart file names

A shallow embedding of `main.go`: `parseLogFile` (the scan loop, the two
regular expressions it compiles, the timestamp parse and the metrics map) and
the file-name computations of `generateGraph` and `generatePDF`.

Text is modelled as `List Char` (a Go string holding valid UTF-8, one `Char`
per rune).  The metrics map `map[string]*ErrorMetric` is modelled as an
association list in first-insertion order; lookups are by key, so nothing
depends on that order.  `ErrorMetric.Count` is a Go `int`; it is incremented
once per appended timestamp, so it is bounded by the length of a slice held in
memory and is modelled as a `Nat`.  The diagnostic `fmt.Printf` of the skip
branch does not influence the returned value and is left out.
-/

namespace LogAnalyzer

/-! ## The regular-expression fragment used by `parseLogFile` -/

/-- Abstract syntax of the regular expressions that `regexp.MustCompile` is given in
`parseLogFile`: character classes, the start-of-text assertion, concatenation,
ordered alternation and the greedy star. -/
inductive Regex where
  | empty : Regex
  | cls (p : Char → Bool) : Regex
  | bol : Regex
  | seq (a b : Regex) : Regex
  | alt (a b : Regex) : Regex
  | star (a : Regex) : Regex

/-- A position of the matcher in the searched text: the number of runes already
passed and the text still ahead. -/
structure Cursor where
  pos : Nat
  rest : List Char
deriving DecidableEq, Repr

/-- Greedy iteration of `step`: every way of running `step` once more (making
progress) comes before stopping here.  The fuel is the length of the text ahead. -/
def starLoop (step : Cursor → List Cursor) : Nat → Cursor → List Cursor
  | 0, c => [c]
  | n + 1, c =>
    (((step c).filter (fun d => decide (d.rest.length < c.rest.length))).map
      (starLoop step n)).flatten ++ [c]

/-- All ways the expression can match starting at the cursor, as the cursors
after the match, in the preference order of Go's leftmost-first matching (the first
alternative before the second, more iterations of a star before fewer). -/
def Regex.run : Regex → Cursor → List Cursor
  | .empty, c => [c]
  | .cls p, c =>
    match c.rest with
    | [] => []
    | x :: xs => if p x then [⟨c.pos + 1, xs⟩] else []
  | .bol, c => if c.pos = 0 then [c] else []
  | .seq a b, c => ((a.run c).map (fun d => b.run d)).flatten
  | .alt a b, c => a.run c ++ b.run c
  | .star a, c => starLoop (fun d => a.run d) c.rest.length c

/-- The preferred match that starts exactly at rune `pos`, where `s` is the text from
`pos` on: the matched text, if there is a match. -/
def Regex.findAt (re : Regex) (pos : Nat) (s : List Char) : Option (List Char) :=
  match re.run ⟨pos, s⟩ with
  | [] => none
  | c :: _ => some (s.take (s.length - c.rest.length))

/-- Leftmost search: try every start position from left to right. -/
def Regex.findFrom (re : Regex) : Nat → List Char → Option (List Char)
  | pos, [] => re.findAt pos []
  | pos, x :: xs =>
    match re.findAt pos (x :: xs) with
    | some m => some m
    | none => re.findFrom (pos + 1) xs

/-- Go `(*Regexp).MatchString`: does the text contain any match. -/
def Regex.MatchString (re : Regex) (s : List Char) : Bool :=
  (re.findFrom 0 s).isSome

/-- Go `(*Regexp).FindString`: the text of the leftmost match, or the empty string
when there is none. -/
def Regex.FindString (re : Regex) (s : List Char) : List Char :=
  (re.findFrom 0 s).getD []

/-- The class of one literal rune. -/
def litClass (ch : Char) : Char → Bool := fun x => x == ch

/-- One literal rune. -/
def lit (ch : Char) : Regex := .cls (litClass ch)

/-- The class of one literal letter under the flag `(?i)`: the letter in either case. -/
def foldClass (ch : Char) : Char → Bool := fun x => x == ch.toUpper || x == ch.toLower

/-- One literal letter under the flag `(?i)`: the letter in either case.  For the
letters of `ERROR` and `EXCEPTION` the Unicode simple-folding orbit is exactly the
ASCII upper/lower pair. -/
def litFold (ch : Char) : Regex := .cls (foldClass ch)

/-- The class `\d`: an ASCII digit. -/
def digit : Regex := .cls Char.isDigit

/-- The runes of the class `.` without the flag `s`: all but the line feed. -/
def notNewline : Char → Bool := fun x => x != '\n'

/-- The class `.` without the flag `s`: any rune except the line feed. -/
def anyChar : Regex := .cls notNewline

/-- Concatenation of a list of expressions. -/
def concat : List Regex → Regex
  | [] => .empty
  | r :: rs => .seq r (concat rs)

/-- Counted repetition `r{n}`. -/
def rep (n : Nat) (r : Regex) : Regex := concat (List.replicate n r)

/-- A literal word under the flag `(?i)`. -/
def wordFold (w : List Char) : Regex := concat (w.map litFold)

/-- The pattern `(?i)(ERROR|EXCEPTION) .*` of `parseLogFile`. -/
def errorPattern : Regex :=
  .seq (.alt (wordFold "ERROR".toList) (wordFold "EXCEPTION".toList))
    (.seq (lit ' ') (.star anyChar))

/-- The pattern `^\d{4}-\d{2}-\d{2} \d{2}:\d{2}:\d{2}` of `parseLogFile`. -/
def timestampPattern : Regex :=
  concat [.bol, rep 4 digit, lit '-', rep 2 digit, lit '-', rep 2 digit, lit ' ',
    rep 2 digit, lit ':', rep 2 digit, lit ':', rep 2 digit]

/-! ## `time.Parse` with the layout `2006-01-02 15:04:05` -/

/-- The value `time.Parse` builds with `Date(year, Month(month), day, hour, min, sec, nsec, UTC)`.
The parser only calls `Date` with in-range fields, for which `Date` does not normalise, so
the fields identify the instant. -/
structure Time where
  year : Nat
  month : Nat
  day : Nat
  hour : Nat
  min : Nat
  sec : Nat
  nsec : Nat
deriving DecidableEq, Repr

/-- Value of an ASCII digit. -/
def digitVal (c : Char) : Nat := c.toNat - '0'.toNat

/-- Go `time.getnum`: a one- or two-digit number; with `fixed` it must have two digits. -/
def getnum : List Char → Bool → Option (Nat × List Char)
  | [], _ => none
  | [a], fixed =>
    if a.isDigit then (if fixed then none else some (digitVal a, [])) else none
  | a :: b :: rest, fixed =>
    if a.isDigit then
      if b.isDigit then some (digitVal a * 10 + digitVal b, rest)
      else if fixed then none else some (digitVal a, b :: rest)
    else none

/-- Go `time.leadingInt`: the value of the leading run of digits and the rest. -/
def leadingInt (s : List Char) : Nat × List Char :=
  ((s.takeWhile Char.isDigit).foldl (fun acc c => acc * 10 + digitVal c) 0,
    s.dropWhile Char.isDigit)

/-- Go `time.atoi` on text whose first byte is a digit (its caller for the year field
checks that first, so the sign branch is not reached): all of the text must be digits. -/
def atoi (s : List Char) : Option Nat :=
  match leadingInt s with
  | (q, []) => some q
  | (_, _ :: _) => none

/-- Go `time.cutspace`: drop leading spaces. -/
def cutspace (s : List Char) : List Char := s.dropWhile (fun c => c == ' ')

/-- Go `time.skip` for a one-byte literal `p` of the layout (the literals of this layout
are `-`, one space and `:`): a space in the layout stands for any run of spaces at the
head of the value, any other byte for itself. -/
def skip (value : List Char) (p : Char) : Option (List Char) :=
  if p == ' ' then
    match value with
    | [] => some []
    | v :: _ => if v != ' ' then none else some (cutspace value)
  else
    match value with
    | [] => none
    | v :: vs => if v != p then none else some vs

/-- Go `time.isLeap`. -/
def isLeap (year : Nat) : Bool :=
  year % 4 == 0 && (year % 100 != 0 || year % 400 == 0)

/-- Go `time.daysIn`: the number of days of month `m` (1 to 12) in `year`. -/
def daysIn (m : Nat) (year : Nat) : Nat :=
  if m == 2 && isLeap year then 29
  else
    match m with
    | 1 => 31 | 2 => 28 | 3 => 31 | 4 => 30 | 5 => 31 | 6 => 30
    | 7 => 31 | 8 => 31 | 9 => 30 | 10 => 31 | 11 => 30 | 12 => 31
    | _ => 0

/-- The special case of the seconds field in Go `time.Parse`: a fractional second in the
value that the layout does not ask for (`.` or `,` and at least one digit) is consumed;
`parseNanoseconds` keeps its first nine digits, scaled to nanoseconds.  Returns the
nanoseconds and the rest of the value. -/
def fractionalSecond (value : List Char) : Nat × List Char :=
  match value with
  | c :: d :: rest =>
    if (c == '.' || c == ',') && d.isDigit then
      let kept := (d :: rest.takeWhile Char.isDigit).take 9
      (kept.foldl (fun acc x => acc * 10 + digitVal x) 0 * 10 ^ (9 - kept.length),
        rest.dropWhile Char.isDigit)
    else (0, value)
  | _ => (0, value)

/-- Go `time.Parse("2006-01-02 15:04:05", value)`: the layout is consumed chunk by chunk
(year, `-`, zero-padded month, `-`, zero-padded day, space, hour, `:`, zero-padded
minute, `:`, zero-padded second), each field is range-checked, no text may remain after
the seconds and their optional fraction, and the day is checked against the month at the
end.  `none` stands for a returned error. -/
def timeParse (value : List Char) : Option Time :=
  match value with
  | y0 :: y1 :: y2 :: y3 :: value =>
    if !y0.isDigit then none else
    match atoi [y0, y1, y2, y3] with
    | none => none
    | some year =>
    match skip value '-' with
    | none => none
    | some value =>
    match getnum value true with
    | none => none
    | some (month, value) =>
    if month ≤ 0 || 12 < month then none else
    match skip value '-' with
    | none => none
    | some value =>
    match getnum value true with
    | none => none
    | some (day, value) =>
    match skip value ' ' with
    | none => none
    | some value =>
    match getnum value false with
    | none => none
    | some (hour, value) =>
    if 24 ≤ hour then none else
    match skip value ':' with
    | none => none
    | some value =>
    match getnum value true with
    | none => none
    | some (min, value) =>
    if 60 ≤ min then none else
    match skip value ':' with
    | none => none
    | some value =>
    match getnum value true with
    | none => none
    | some (sec, value) =>
    if 60 ≤ sec then none else
    match fractionalSecond value with
    | (nsec, value) =>
    if !value.isEmpty then none else
    if day < 1 || day > daysIn month year then none else
    some ⟨year, month, day, hour, min, sec, nsec⟩
  | _ => none

/-! ## `strings.ToUpper`, `strings.ToLower` -/

/-- The rune maps `unicode.ToUpper` and `unicode.ToLower` of the Go standard library.
Their tables are not part of the repository; they are a parameter of the model. -/
structure CaseTables where
  toUpper : Char → Char
  toLower : Char → Char

/-- Is the rune below `utf8.RuneSelf`. -/
def isASCII (c : Char) : Bool := c.toNat < 128

/-- Go `strings.ToUpper`: text made of ASCII only takes the byte loop (`a`..`z` moved to
`A`..`Z`); other text is mapped rune by rune with `unicode.ToUpper`. -/
def ToUpper (tb : CaseTables) (s : List Char) : List Char :=
  if s.all isASCII then s.map Char.toUpper else s.map tb.toUpper

/-- Go `strings.ToLower`: text made of ASCII only takes the byte loop (`A`..`Z` moved to
`a`..`z`); other text is mapped rune by rune with `unicode.ToLower`. -/
def ToLower (tb : CaseTables) (s : List Char) : List Char :=
  if s.all isASCII then s.map Char.toLower else s.map tb.toLower

/-! ## The metrics map and `parseLogFile` -/

/-- Go `ErrorMetric`. -/
structure ErrorMetric where
  Count : Nat
  Timestamps : List Time
deriving DecidableEq, Repr

/-- The map `map[string]*ErrorMetric`, as an association list with one pair per key. -/
abbrev Metrics := List (List Char × ErrorMetric)

/-- Map read `metrics[key]` with the presence flag. -/
def Metrics.get (m : Metrics) (key : List Char) : Option ErrorMetric :=
  match m with
  | [] => none
  | (k, v) :: rest => if k = key then some v else Metrics.get rest key

/-- An update through the pointer stored under `key`: the entry under `key` is replaced by
`f` of it; a map without the key is unchanged. -/
def Metrics.modify (m : Metrics) (key : List Char) (f : ErrorMetric → ErrorMetric) :
    Metrics :=
  match m with
  | [] => []
  | (k, v) :: rest =>
    if k = key then (k, f v) :: rest else (k, v) :: Metrics.modify rest key f

/-- The statement `metrics[errorType] = &ErrorMetric{}` for a key that is absent (the only
place it runs): a new entry with the zero metric. -/
def Metrics.insertNew (m : Metrics) (key : List Char) : Metrics :=
  m ++ [(key, ⟨0, []⟩)]

/-- The map update of a recorded line, lines 79 to 83 of `main.go`: create the entry when
the key is absent, increment its `Count`, append the timestamp to its `Timestamps`. -/
def record (metrics : Metrics) (errorType : List Char) (timestamp : Time) : Metrics :=
  let metrics :=
    if (metrics.get errorType).isSome then metrics else metrics.insertNew errorType
  let metrics := metrics.modify errorType (fun e => { e with Count := e.Count + 1 })
  metrics.modify errorType (fun e => { e with Timestamps := e.Timestamps ++ [timestamp] })

/-- One iteration of the scan loop of `parseLogFile` on `line`: a line the error pattern
does not match is passed over; a matching line whose timestamp fails to parse is skipped
(`continue`); any other line is recorded. -/
def processLine (tb : CaseTables) (metrics : Metrics) (line : List Char) : Metrics :=
  if errorPattern.MatchString line then
    let errorType := ToUpper tb (errorPattern.FindString line)
    let timestampStr := timestampPattern.FindString line
    match timeParse timestampStr with
    | none => metrics
    | some timestamp => record metrics errorType timestamp
  else metrics

/-- The scan loop: the lines the scanner yields, processed in order from the empty map. -/
def scanLoop (tb : CaseTables) (lines : List (List Char)) : Metrics :=
  lines.foldl (processLine tb) []

/-- What the environment gives `parseLogFile`: `os.Open` fails, or the file opens and the
scanner yields `lines` and then stops, at the end of the file (`readFails = false`) or
on an error that `scanner.Err` reports (`readFails = true`). -/
inductive FileInput where
  | openFails : FileInput
  | opened (lines : List (List Char)) (readFails : Bool) : FileInput

/-- The two errors `parseLogFile` returns. -/
inductive ParseError where
  | openError : ParseError
  | readError : ParseError
deriving DecidableEq, Repr

/-- Go `parseLogFile`: `Except.error` stands for the return `nil, err`, `Except.ok` for
`metrics, nil`. -/
def parseLogFile (tb : CaseTables) : FileInput → Except ParseError Metrics
  | .openFails => .error .openError
  | .opened lines readFails =>
    let metrics := scanLoop tb lines
    if readFails then .error .readError else .ok metrics

/-! ## File names of the chart -/

/-- The file name `generateGraph` saves the chart under:
`fmt.Sprintf("%s_graph.png", strings.ToLower(errorType))`. -/
def generateGraph_filename (tb : CaseTables) (errorType : List Char) : List Char :=
  ToLower tb errorType ++ "_graph.png".toList

/-- The file name `generatePDF` passes to `pdf.Image`:
`fmt.Sprintf("%s_graph.png", strings.ToLower(errorType))`. -/
def generatePDF_graphFilename (tb : CaseTables) (errorType : List Char) : List Char :=
  ToLower tb errorType ++ "_graph.png".toList

/-! ## Auxiliary definitions for the proofs and the statements -/

/-- Pointwise test of the leading runes of a text against a list of classes. -/
def matchesClasses : List (Char → Bool) → List Char → Bool
  | [], _ => true
  | _ :: _, [] => false
  | p :: ps, x :: xs => p x && matchesClasses ps xs

/-- The classes of an expression built from classes by concatenation only. -/
def classesOf : Regex → Option (List (Char → Bool))
  | .empty => some []
  | .cls p => some [p]
  | .seq a b =>
    match classesOf a, classesOf b with
    | some ps, some qs => some (ps ++ qs)
    | _, _ => none
  | _ => none


/-- Does the text begin, compared case-insensitively, with `ERROR` or `EXCEPTION`
immediately followed by one space. -/
def startsWithKeywordSpace (t : List Char) : Bool :=
  (t.take 6).map Char.toUpper == "ERROR ".toList ||
    (t.take 10).map Char.toUpper == "EXCEPTION ".toList

/-- Does the text begin, compared case-insensitively, with `ERROR` or `EXCEPTION`
(whatever follows). -/
def startsWithKeyword (t : List Char) : Bool :=
  (t.take 5).map Char.toUpper == "ERROR".toList ||
    (t.take 9).map Char.toUpper == "EXCEPTION".toList

/-- The suffix of the text that starts at the leftmost position whose suffix satisfies
`P`, if there is one. -/
def leftmostSuffix (P : List Char → Bool) : List Char → Option (List Char)
  | [] => if P [] then some [] else none
  | x :: xs => if P (x :: xs) then some (x :: xs) else leftmostSuffix P xs


/-- The classes of the nineteen runes of `dddd-dd-dd dd:dd:dd`: ASCII digits and the
literal `-`, space and `:`. -/
def timestampClasses : List (Char → Bool) :=
  [Char.isDigit, Char.isDigit, Char.isDigit, Char.isDigit, litClass '-',
    Char.isDigit, Char.isDigit, litClass '-', Char.isDigit, Char.isDigit, litClass ' ',
    Char.isDigit, Char.isDigit, litClass ':', Char.isDigit, Char.isDigit, litClass ':',
    Char.isDigit, Char.isDigit]

/-- Does the line begin with `dddd-dd-dd dd:dd:dd`. -/
def beginsWithTimestampShape (line : List Char) : Bool :=
  matchesClasses timestampClasses line

/-- The decimal number written in the `n` runes of the line from index `i`. -/
def numAt (line : List Char) (i n : Nat) : Nat :=
  ((line.drop i).take n).foldl (fun acc c => acc * 10 + digitVal c) 0

/-- Calendar length of a month, with the Gregorian leap-year rule. -/
def daysInMonth (year month : Nat) : Nat :=
  if month = 2 then
    if (year % 4 = 0 ∧ year % 100 ≠ 0) ∨ year % 400 = 0 then 29 else 28
  else if month = 4 ∨ month = 6 ∨ month = 9 ∨ month = 11 then 30
  else 31

/-- Do the fields at the positions of `YYYY-MM-DD HH:MM:SS` denote a real date and time:
month 1 to 12, day 1 to the length of the month, hour 0 to 23, minute and second 0 to 59. -/
def isRealDateTime (line : List Char) : Bool :=
  decide (1 ≤ numAt line 5 2 ∧ numAt line 5 2 ≤ 12 ∧
    1 ≤ numAt line 8 2 ∧ numAt line 8 2 ≤ daysInMonth (numAt line 0 4) (numAt line 5 2) ∧
    numAt line 11 2 ≤ 23 ∧ numAt line 14 2 ≤ 59 ∧ numAt line 17 2 ≤ 59)

/-- The date and time a line begins with (to the second, no fraction), when it begins
with a well-shaped timestamp that denotes a real date and time. -/
def leadingTimestamp (line : List Char) : Option Time :=
  if beginsWithTimestampShape line && isRealDateTime line then
    some ⟨numAt line 0 4, numAt line 5 2, numAt line 8 2, numAt line 11 2, numAt line 14 2,
      numAt line 17 2, 0⟩
  else none


/-- Is the line an error line for `parseLogFile`: does the error pattern match it. -/
def isErrorLine (line : List Char) : Bool := errorPattern.MatchString line

/-- The label `parseLogFile` computes for an error line. -/
def labelOf (tb : CaseTables) (line : List Char) : List Char :=
  ToUpper tb (errorPattern.FindString line)

/-- The parsed leading timestamp of a line, if it parses. -/
def timestampOf (line : List Char) : Option Time :=
  timeParse (timestampPattern.FindString line)

/-- The parsed timestamps, in file order, of the error lines with label `L` whose
timestamp parses. -/
def occurrences (tb : CaseTables) (L : List Char) (lines : List (List Char)) : List Time :=
  lines.filterMap (fun l =>
    if isErrorLine l && decide (labelOf tb l = L) then timestampOf l else none)

/-- The line changes what the map holds under some key. -/
def recordsLine (tb : CaseTables) (metrics : Metrics) (line : List Char) : Prop :=
  ∃ key, (processLine tb metrics line).get key ≠ metrics.get key

/-- The entry after one more occurrence at `t`. -/
def bump (t : Time) (e : ErrorMetric) : ErrorMetric :=
  ⟨e.Count + 1, e.Timestamps ++ [t]⟩


/-- Case tables that agree with Unicode on ASCII and leave every other rune unchanged; used
to instantiate statements at concrete ASCII inputs, where `strings.ToUpper` and
`strings.ToLower` never consult the tables. -/
def asciiTables : CaseTables := ⟨Char.toUpper, Char.toLower⟩

/-- First line of scenario 1. -/
def scenario1a : List Char := "2024-01-01 10:00:00 ERROR disk full".toList

/-- Second line of scenario 1. -/
def scenario1b : List Char := "2024-01-01 10:05:00 ERROR disk full".toList

/-- The line of scenario 2. -/
def scenario2 : List Char := "ERROR disk full".toList

/-- First line of scenario 3. -/
def scenario3a : List Char := "2024-01-01 10:00:00 EXCEPTION NullPointer".toList

/-- Second line of scenario 3. -/
def scenario3b : List Char := "2024-01-01 10:01:00 error nullpointer".toList

/-! ## The two patterns -/

theorem matchesClasses_append (ps qs : List (Char → Bool)) (s : List Char) :
    matchesClasses (ps ++ qs) s
      = (matchesClasses ps s && matchesClasses qs (s.drop ps.length)) := by
  induction ps generalizing s with
  | nil => simp [matchesClasses]
  | cons p ps ih =>
    cases s with
    | nil => simp [matchesClasses]
    | cons x xs => simp [matchesClasses, ih, Bool.and_assoc]

theorem matchesClasses_length {ps : List (Char → Bool)} {s : List Char}
    (h : matchesClasses ps s = true) : ps.length ≤ s.length := by
  induction ps generalizing s with
  | nil => simp
  | cons p ps ih =>
    cases s with
    | nil => simp [matchesClasses] at h
    | cons x xs =>
      simp only [matchesClasses, Bool.and_eq_true] at h
      have := ih h.2
      simp only [List.length_cons]; omega

theorem run_of_classes (r : Regex) : ∀ (ps : List (Char → Bool)), classesOf r = some ps →
    ∀ (pos : Nat) (s : List Char), r.run ⟨pos, s⟩
      = if matchesClasses ps s then [⟨pos + ps.length, s.drop ps.length⟩] else [] := by
  induction r with
  | empty => intro ps h pos s; simp [classesOf] at h; subst h; simp [Regex.run, matchesClasses]
  | cls p =>
    intro ps h pos s; simp [classesOf] at h; subst h
    cases s with
    | nil => simp [Regex.run, matchesClasses]
    | cons x xs => simp [Regex.run, matchesClasses]
  | bol => intro ps h; simp [classesOf] at h
  | alt a b _ _ => intro ps h; simp [classesOf] at h
  | star a _ => intro ps h; simp [classesOf] at h
  | seq a b iha ihb =>
    intro ps h pos s
    simp only [classesOf] at h
    cases ha : classesOf a with
    | none => simp [ha] at h
    | some as =>
      cases hb : classesOf b with
      | none => simp [ha, hb] at h
      | some bs =>
        simp [ha, hb] at h; subst h
        simp only [Regex.run, iha as ha, matchesClasses_append]
        by_cases h1 : matchesClasses as s = true
        · simp [h1, ihb bs hb, Nat.add_assoc]
        · simp [h1]

theorem run_seq_of_classes (r t : Regex) (ps : List (Char → Bool)) (h : classesOf r = some ps)
    (pos : Nat) (s : List Char) :
    (Regex.seq r t).run ⟨pos, s⟩
      = if matchesClasses ps s then t.run ⟨pos + ps.length, s.drop ps.length⟩ else [] := by
  simp only [Regex.run, run_of_classes r ps h]
  by_cases h1 : matchesClasses ps s = true <;> simp [h1]

theorem toNat_ofNat_small (m : Nat) (h : m < 55296) : (Char.ofNat m).toNat = m := by
  have hv : m.isValidChar := Or.inl h
  simp only [Char.ofNat, hv, dite_true, Char.ofNatAux, Char.toNat]
  simp [UInt32.toNat]

theorem eq_of_toNat_eq {a b : Char} (h : a.toNat = b.toNat) : a = b := by
  rw [← Char.ofNat_toNat a, ← Char.ofNat_toNat b, h]

theorem toUpper_toNat (x : Char) :
    x.toUpper.toNat = if 97 ≤ x.toNat ∧ x.toNat ≤ 122 then x.toNat - 32 else x.toNat := by
  unfold Char.toUpper
  simp only [ge_iff_le]
  split
  · rename_i h
    exact toNat_ofNat_small _ (by omega)
  · rfl

theorem toLower_toNat (x : Char) :
    x.toLower.toNat = if 65 ≤ x.toNat ∧ x.toNat ≤ 90 then x.toNat + 32 else x.toNat := by
  unfold Char.toLower
  simp only [ge_iff_le]
  split
  · rename_i h
    exact toNat_ofNat_small _ (by omega)
  · rfl

/-- For an upper-case ASCII letter `u`, the class of `u` under `(?i)` holds exactly the
runes whose ASCII upper case is `u`. -/
theorem foldClass_iff (u : Char) (hu : 65 ≤ u.toNat ∧ u.toNat ≤ 90) (x : Char) :
    foldClass u x = true ↔ x.toUpper = u := by
  have e1 : u.toUpper.toNat = u.toNat := by rw [toUpper_toNat]; split <;> omega
  have e2 : u.toLower.toNat = u.toNat + 32 := by rw [toLower_toNat]; split <;> omega
  simp only [foldClass, Bool.or_eq_true, beq_iff_eq]
  constructor
  · rintro (h | h)
    · subst h; apply eq_of_toNat_eq; rw [toUpper_toNat, e1]; split <;> omega
    · subst h; apply eq_of_toNat_eq; rw [toUpper_toNat, e2]; split <;> omega
  · intro h
    have h2 := congrArg Char.toNat h
    rw [toUpper_toNat] at h2
    split at h2
    · right; apply eq_of_toNat_eq; omega
    · left; apply eq_of_toNat_eq; omega

theorem litClass_space_iff (x : Char) : litClass ' ' x = true ↔ x.toUpper = ' ' := by
  have e : (' ' : Char).toNat = 32 := rfl
  simp only [litClass, beq_iff_eq]
  constructor
  · intro h; subst h; rfl
  · intro h
    have h2 := congrArg Char.toNat h
    rw [toUpper_toNat, e] at h2
    apply eq_of_toNat_eq
    rw [e]
    split at h2 <;> omega

theorem matchesClasses_iff {ps : List (Char → Bool)} {w : List Char}
    (h : List.Forall₂ (fun p u => ∀ x, p x = true ↔ Char.toUpper x = u) ps w) (s : List Char) :
    matchesClasses ps s = true ↔ (s.take w.length).map Char.toUpper = w := by
  induction h generalizing s with
  | nil => simp [matchesClasses]
  | cons hpu _ ih =>
    cases s with
    | nil => simp [matchesClasses]
    | cons x xs => simp [matchesClasses, hpu x, ih xs]

theorem starLoop_head (p : Char → Bool) (step : Cursor → List Cursor)
    (hnil : ∀ pos, step ⟨pos, []⟩ = [])
    (hcons : ∀ pos x xs, step ⟨pos, x :: xs⟩ = if p x then [⟨pos + 1, xs⟩] else []) :
    ∀ (n pos : Nat) (s : List Char), s.length ≤ n →
    (starLoop step n ⟨pos, s⟩).head?
      = some ⟨pos + (s.takeWhile p).length, s.dropWhile p⟩ := by
  intro n
  induction n with
  | zero =>
    intro pos s h
    have : s = [] := List.length_eq_zero.mp (Nat.le_zero.mp h)
    subst this
    simp [starLoop]
  | succ n ih =>
    intro pos s h
    cases s with
    | nil => simp [starLoop, hnil]
    | cons x xs =>
      by_cases hp : p x = true
      · have hlen : xs.length ≤ n := by simpa using h
        have := ih (pos + 1) xs hlen
        simp only [starLoop, hcons, hp, if_true, List.filter_cons, List.length_cons,
          Nat.lt_succ_self, decide_True, List.filter_nil, List.map_cons, List.map_nil,
          List.flatten_cons, List.flatten_nil, List.append_nil, List.takeWhile_cons,
          List.dropWhile_cons]
        rw [List.head?_append, this]
        simp [Nat.add_assoc, Nat.add_comm 1]
      · simp [starLoop, hcons, hp]

theorem run_star_cls_head (p : Char → Bool) (pos : Nat) (s : List Char) :
    ((Regex.star (.cls p)).run ⟨pos, s⟩).head?
      = some ⟨pos + (s.takeWhile p).length, s.dropWhile p⟩ := by
  simp only [Regex.run]
  exact starLoop_head p _ (fun _ => rfl) (fun _ _ _ => rfl) s.length pos s (le_refl _)

theorem findAt_eq (re : Regex) (pos : Nat) (s : List Char) :
    re.findAt pos s
      = (re.run ⟨pos, s⟩).head?.map (fun c => s.take (s.length - c.rest.length)) := by
  unfold Regex.findAt
  cases re.run ⟨pos, s⟩ <;> rfl

theorem run_keywordTail (pos : Nat) (s : List Char) :
    ((Regex.seq (lit ' ') (.star anyChar)).run ⟨pos, s⟩).head?
      = if matchesClasses [litClass ' '] s
        then some ⟨pos + 1 + ((s.drop 1).takeWhile notNewline).length,
          (s.drop 1).dropWhile notNewline⟩
        else none := by
  rw [run_seq_of_classes (lit ' ') _ [litClass ' '] rfl]
  by_cases h : matchesClasses [litClass ' '] s = true
  · simp only [h, if_true, anyChar, List.length_singleton]
    exact run_star_cls_head notNewline (pos + 1) (s.drop 1)
  · simp [h]

theorem run_keyword_head (w : List Char) (pos : Nat) (s : List Char) :
    ((Regex.seq (wordFold w) (.seq (lit ' ') (.star anyChar))).run ⟨pos, s⟩).head?
      = if matchesClasses (w.map foldClass ++ [litClass ' ']) s
        then some ⟨pos + w.length + 1 + ((s.drop (w.length + 1)).takeWhile notNewline).length,
          (s.drop (w.length + 1)).dropWhile notNewline⟩
        else none := by
  have hc : classesOf (wordFold w) = some (w.map foldClass) := by
    induction w with
    | nil => rfl
    | cons a w ih =>
      simp only [wordFold, List.map_cons, concat, classesOf, litFold] at ih ⊢
      rw [ih]; rfl
  rw [run_seq_of_classes (wordFold w) _ (w.map foldClass) hc, matchesClasses_append]
  by_cases h : matchesClasses (w.map foldClass) s = true
  · simp only [h, if_true, Bool.true_and, List.length_map, run_keywordTail]
    by_cases h2 : matchesClasses [litClass ' '] (s.drop w.length) = true
    · simp [h2, Nat.add_comm 1]
    · simp [h2]
  · simp [h]

theorem run_seq_alt (a b t : Regex) (c : Cursor) :
    (Regex.seq (.alt a b) t).run c = (Regex.seq a t).run c ++ (Regex.seq b t).run c := by
  simp [Regex.run]

theorem keywordE_iff (s : List Char) :
    matchesClasses ("ERROR".toList.map foldClass ++ [litClass ' ']) s = true
      ↔ (s.take 6).map Char.toUpper = "ERROR ".toList := by
  refine matchesClasses_iff (w := "ERROR ".toList) ?_ s
  exact .cons (foldClass_iff _ (by decide)) (.cons (foldClass_iff _ (by decide))
    (.cons (foldClass_iff _ (by decide)) (.cons (foldClass_iff _ (by decide))
    (.cons (foldClass_iff _ (by decide)) (.cons litClass_space_iff .nil)))))

theorem keywordX_iff (s : List Char) :
    matchesClasses ("EXCEPTION".toList.map foldClass ++ [litClass ' ']) s = true
      ↔ (s.take 10).map Char.toUpper = "EXCEPTION ".toList := by
  refine matchesClasses_iff (w := "EXCEPTION ".toList) ?_ s
  exact .cons (foldClass_iff _ (by decide)) (.cons (foldClass_iff _ (by decide))
    (.cons (foldClass_iff _ (by decide)) (.cons (foldClass_iff _ (by decide))
    (.cons (foldClass_iff _ (by decide)) (.cons (foldClass_iff _ (by decide))
    (.cons (foldClass_iff _ (by decide)) (.cons (foldClass_iff _ (by decide))
    (.cons (foldClass_iff _ (by decide)) (.cons litClass_space_iff .nil)))))))))

/-- The preferred match of the error pattern at one start position: it exists exactly when
the text there begins with a keyword and a space, and it ends where the rest of the line
has its first line feed (or at the end). -/
theorem findAt_errorPattern (pos : Nat) (s : List Char) :
    errorPattern.findAt pos s
      = if (s.take 6).map Char.toUpper = "ERROR ".toList
        then some (s.take (s.length - ((s.drop 6).dropWhile notNewline).length))
        else if (s.take 10).map Char.toUpper = "EXCEPTION ".toList
        then some (s.take (s.length - ((s.drop 10).dropWhile notNewline).length))
        else none := by
  rw [findAt_eq, errorPattern, run_seq_alt, List.head?_append, run_keyword_head,
    run_keyword_head]
  simp only [keywordE_iff, keywordX_iff]
  split_ifs with h1 h2 <;> rfl

theorem findAt_errorPattern_isSome (pos : Nat) (s : List Char) :
    (errorPattern.findAt pos s).isSome = startsWithKeywordSpace s := by
  rw [findAt_errorPattern, startsWithKeywordSpace]
  split_ifs with h1 h2
  · rw [beq_iff_eq.mpr h1]; rfl
  · rw [beq_iff_eq.mpr h2, Bool.or_true]; rfl
  · rw [beq_eq_false_iff_ne.mpr h1, beq_eq_false_iff_ne.mpr h2]; rfl

theorem findAt_errorPattern_noNewline (pos : Nat) (s : List Char) (hnl : '\n' ∉ s)
    (h : startsWithKeywordSpace s = true) : errorPattern.findAt pos s = some s := by
  have hd : ∀ k, (s.drop k).dropWhile notNewline = [] := by
    intro k
    rw [List.dropWhile_eq_nil_iff]
    intro x hx
    have hxs : x ∈ s := List.mem_of_mem_drop hx
    simp only [notNewline, bne_iff_ne, ne_eq]
    intro e; subst e; exact hnl hxs
  rw [findAt_errorPattern]
  simp only [startsWithKeywordSpace, Bool.or_eq_true, beq_iff_eq] at h
  by_cases h1 : (s.take 6).map Char.toUpper = "ERROR ".toList
  · rw [if_pos h1, hd]; simp
  · have h2 := h.resolve_left h1
    rw [if_neg h1, if_pos h2, hd]; simp

theorem leftmostSuffix_isSome_iff (P : List Char → Bool) (s : List Char) :
    (leftmostSuffix P s).isSome = true ↔ ∃ pre t, s = pre ++ t ∧ P t = true := by
  induction s with
  | nil =>
    by_cases h : P [] = true
    · simp only [leftmostSuffix, h, if_true, Option.isSome_some, true_iff]
      exact ⟨[], [], rfl, h⟩
    · rw [leftmostSuffix, if_neg h]
      simp only [Option.isSome_none, Bool.false_eq_true, false_iff]
      rintro ⟨pre, t, e, ht⟩
      have e2 := List.append_eq_nil.mp e.symm
      rw [e2.2] at ht; exact h ht
  | cons x xs ih =>
    by_cases h : P (x :: xs) = true
    · simp only [leftmostSuffix, h, if_true, Option.isSome_some, true_iff]
      exact ⟨[], x :: xs, rfl, h⟩
    · rw [leftmostSuffix, if_neg h, ih]
      constructor
      · rintro ⟨pre, t, e, ht⟩
        exact ⟨x :: pre, t, by rw [e]; rfl, ht⟩
      · rintro ⟨pre, t, e, ht⟩
        cases pre with
        | nil => simp only [List.nil_append] at e; rw [← e] at ht; exact absurd ht h
        | cons y pre =>
          simp only [List.cons_append, List.cons.injEq] at e
          exact ⟨pre, t, e.2, ht⟩

/-- What `leftmostSuffix` returns is a suffix satisfying `P`, and no suffix starting
further left satisfies `P`. -/
theorem leftmostSuffix_eq_some (P : List Char → Bool) (s t : List Char)
    (h : leftmostSuffix P s = some t) :
    ∃ pre, s = pre ++ t ∧ P t = true ∧
      ∀ pre2 t2, s = pre2 ++ t2 → P t2 = true → pre.length ≤ pre2.length := by
  induction s with
  | nil =>
    by_cases hp : P [] = true
    · simp only [leftmostSuffix, hp, if_true, Option.some.injEq] at h
      subst h
      exact ⟨[], rfl, hp, fun _ _ _ _ => Nat.zero_le _⟩
    · simp [leftmostSuffix, hp] at h
  | cons x xs ih =>
    by_cases hp : P (x :: xs) = true
    · simp only [leftmostSuffix, hp, if_true, Option.some.injEq] at h
      subst h
      exact ⟨[], rfl, hp, fun _ _ _ _ => Nat.zero_le _⟩
    · rw [leftmostSuffix, if_neg hp] at h
      obtain ⟨pre, e, ht, hmin⟩ := ih h
      refine ⟨x :: pre, by rw [e]; rfl, ht, ?_⟩
      intro pre2 t2 e2 ht2
      cases pre2 with
      | nil => simp only [List.nil_append] at e2; rw [← e2] at ht2; exact absurd ht2 hp
      | cons y pre2 =>
        simp only [List.cons_append, List.cons.injEq] at e2
        have := hmin pre2 t2 e2.2 ht2
        simp only [List.length_cons]; omega

theorem findFrom_errorPattern_isSome (pos : Nat) (s : List Char) :
    (errorPattern.findFrom pos s).isSome = (leftmostSuffix startsWithKeywordSpace s).isSome := by
  induction s generalizing pos with
  | nil =>
    simp only [Regex.findFrom, findAt_errorPattern_isSome, leftmostSuffix]
    split_ifs with h <;> simp [h]
  | cons x xs ih =>
    have h1 := findAt_errorPattern_isSome pos (x :: xs)
    simp only [Regex.findFrom, leftmostSuffix]
    cases hf : errorPattern.findAt pos (x :: xs) with
    | some m =>
      rw [hf] at h1
      simp [← h1]
    | none =>
      rw [hf] at h1
      simp only [Option.isSome_none] at h1
      simp [← h1, ih]

theorem findFrom_errorPattern_noNewline (pos : Nat) (s : List Char) (hnl : '\n' ∉ s) :
    errorPattern.findFrom pos s = leftmostSuffix startsWithKeywordSpace s := by
  induction s generalizing pos with
  | nil =>
    have h1 := findAt_errorPattern_isSome pos []
    simp only [Regex.findFrom, leftmostSuffix]
    by_cases h : startsWithKeywordSpace [] = true
    · rw [findAt_errorPattern_noNewline pos [] hnl h, if_pos h]
    · rw [if_neg h]
      rw [Bool.not_eq_true] at h
      rw [h] at h1
      simpa using h1
  | cons x xs ih =>
    have h1 := findAt_errorPattern_isSome pos (x :: xs)
    have hnl2 : '\n' ∉ xs := fun hx => hnl (List.mem_cons_of_mem _ hx)
    simp only [Regex.findFrom, leftmostSuffix]
    by_cases h : startsWithKeywordSpace (x :: xs) = true
    · rw [findAt_errorPattern_noNewline pos (x :: xs) hnl h, if_pos h]
    · rw [if_neg h]
      rw [Bool.not_eq_true] at h
      rw [h] at h1
      have h2 : errorPattern.findAt pos (x :: xs) = none := by simpa using h1
      rw [h2]
      exact ih (pos + 1) hnl2

/-- The error pattern matches a line exactly when some position of the line begins, compared
case-insensitively, with `ERROR` or `EXCEPTION` followed by a space. -/
theorem MatchString_errorPattern (s : List Char) :
    errorPattern.MatchString s = (leftmostSuffix startsWithKeywordSpace s).isSome :=
  findFrom_errorPattern_isSome 0 s

/-- On a line without a line feed the match of the error pattern is the suffix of the line
from the leftmost keyword that is followed by a space. -/
theorem FindString_errorPattern (s : List Char) (hnl : '\n' ∉ s) :
    errorPattern.FindString s = (leftmostSuffix startsWithKeywordSpace s).getD [] := by
  rw [Regex.FindString, findFrom_errorPattern_noNewline 0 s hnl]

theorem run_timestampPattern (pos : Nat) (s : List Char) :
    timestampPattern.run ⟨pos, s⟩
      = if pos = 0 then
          (if matchesClasses timestampClasses s then [⟨19, s.drop 19⟩] else [])
        else [] := by
  have hc : classesOf (concat [rep 4 digit, lit '-', rep 2 digit, lit '-', rep 2 digit,
      lit ' ', rep 2 digit, lit ':', rep 2 digit, lit ':', rep 2 digit])
      = some timestampClasses := rfl
  have hrun := run_of_classes _ _ hc
  rw [timestampPattern, concat]
  generalize concat [rep 4 digit, lit '-', rep 2 digit, lit '-', rep 2 digit,
      lit ' ', rep 2 digit, lit ':', rep 2 digit, lit ':', rep 2 digit] = body at hrun
  simp only [Regex.run]
  by_cases hp : pos = 0
  · subst hp
    simp [hrun, timestampClasses]
  · simp [hp]

theorem findAt_timestampPattern_zero (s : List Char) :
    timestampPattern.findAt 0 s
      = if matchesClasses timestampClasses s then some (s.take 19) else none := by
  rw [findAt_eq, run_timestampPattern]
  by_cases h : matchesClasses timestampClasses s = true
  · have hl : 19 ≤ s.length := matchesClasses_length h
    simp only [h, if_true, List.head?_cons, Option.map_some', List.length_drop]
    congr 2
    omega
  · simp [h]

theorem findFrom_timestampPattern_succ (pos : Nat) (s : List Char) :
    timestampPattern.findFrom (pos + 1) s = none := by
  induction s generalizing pos with
  | nil => simp [Regex.findFrom, findAt_eq, run_timestampPattern]
  | cons x xs ih => simp [Regex.findFrom, findAt_eq, run_timestampPattern, ih]

/-- The match of the timestamp pattern: the first nineteen runes of a line that begins with
`dddd-dd-dd dd:dd:dd`, and nothing otherwise. -/
theorem FindString_timestampPattern (s : List Char) :
    timestampPattern.FindString s
      = if beginsWithTimestampShape s then s.take 19 else [] := by
  have h0 := findAt_timestampPattern_zero s
  unfold Regex.FindString beginsWithTimestampShape
  cases s with
  | nil =>
    simp only [Regex.findFrom, h0]
    split_ifs <;> rfl
  | cons x xs =>
    simp only [Regex.findFrom, h0, findFrom_timestampPattern_succ]
    split_ifs <;> rfl

theorem getnum_two {a b : Char} (ha : a.isDigit = true) (hb : b.isDigit = true)
    (rest : List Char) (isFixed : Bool) :
    getnum (a :: b :: rest) isFixed = some (digitVal a * 10 + digitVal b, rest) := by
  simp [getnum, ha, hb]

theorem atoi_four {a b c d : Char} (ha : a.isDigit = true) (hb : b.isDigit = true)
    (hc : c.isDigit = true) (hd : d.isDigit = true) :
    atoi [a, b, c, d]
      = some (((digitVal a * 10 + digitVal b) * 10 + digitVal c) * 10 + digitVal d) := by
  simp [atoi, leadingInt, ha, hb, hc, hd]

theorem skip_dash (v : List Char) : skip ('-' :: v) '-' = some v := by
  simp [skip]

theorem skip_colon (v : List Char) : skip (':' :: v) ':' = some v := by
  simp [skip]

theorem skip_space_digit {d : Char} (hd : d.isDigit = true) (v : List Char) :
    skip (' ' :: d :: v) ' ' = some (d :: v) := by
  have hne : d ≠ ' ' := by
    intro e; subst e; exact absurd hd (by decide)
  have hb : (d == ' ') = false := beq_eq_false_iff_ne.mpr hne
  simp [skip, cutspace, List.dropWhile, hb]

theorem daysIn_eq_daysInMonth (month year : Nat) (h1 : 1 ≤ month) (h2 : month ≤ 12) :
    daysIn month year = daysInMonth year month := by
  unfold daysIn daysInMonth isLeap
  interval_cases month <;> simp
  split_ifs with h3 h4 h4 <;> first | rfl | (exfalso; omega)

theorem timeParse_FindString (line : List Char) :
    timeParse (timestampPattern.FindString line) = leadingTimestamp line := by
  rw [FindString_timestampPattern]
  unfold leadingTimestamp
  by_cases h : beginsWithTimestampShape line = true
  swap
  · simp [h, timeParse]
  rw [if_pos h, h, Bool.true_and]
  unfold beginsWithTimestampShape at h
  rcases line with _ | ⟨y0, line⟩
  · simp [matchesClasses, timestampClasses] at h
  rcases line with _ | ⟨y1, line⟩
  · simp [matchesClasses, timestampClasses] at h
  rcases line with _ | ⟨y2, line⟩
  · simp [matchesClasses, timestampClasses] at h
  rcases line with _ | ⟨y3, line⟩
  · simp [matchesClasses, timestampClasses] at h
  rcases line with _ | ⟨a1, line⟩
  · simp [matchesClasses, timestampClasses] at h
  rcases line with _ | ⟨m0, line⟩
  · simp [matchesClasses, timestampClasses] at h
  rcases line with _ | ⟨m1, line⟩
  · simp [matchesClasses, timestampClasses] at h
  rcases line with _ | ⟨a2, line⟩
  · simp [matchesClasses, timestampClasses] at h
  rcases line with _ | ⟨d0, line⟩
  · simp [matchesClasses, timestampClasses] at h
  rcases line with _ | ⟨d1, line⟩
  · simp [matchesClasses, timestampClasses] at h
  rcases line with _ | ⟨sp, line⟩
  · simp [matchesClasses, timestampClasses] at h
  rcases line with _ | ⟨h0, line⟩
  · simp [matchesClasses, timestampClasses] at h
  rcases line with _ | ⟨h1, line⟩
  · simp [matchesClasses, timestampClasses] at h
  rcases line with _ | ⟨b1, line⟩
  · simp [matchesClasses, timestampClasses] at h
  rcases line with _ | ⟨i0, line⟩
  · simp [matchesClasses, timestampClasses] at h
  rcases line with _ | ⟨i1, line⟩
  · simp [matchesClasses, timestampClasses] at h
  rcases line with _ | ⟨b2, line⟩
  · simp [matchesClasses, timestampClasses] at h
  rcases line with _ | ⟨s0, line⟩
  · simp [matchesClasses, timestampClasses] at h
  rcases line with _ | ⟨s1, line⟩
  · simp [matchesClasses, timestampClasses] at h
  simp only [matchesClasses, timestampClasses, litClass, Bool.and_eq_true, beq_iff_eq,
    Bool.and_true] at h
  obtain ⟨hy0, hy1, hy2, hy3, rfl, hm0, hm1, rfl, hd0, hd1, rfl, hh0, hh1, rfl, hi0, hi1, rfl,
    hs0, hs1⟩ := h
  simp only [List.take, timeParse, hy0, atoi_four hy0 hy1 hy2 hy3, skip_dash, skip_colon,
    skip_space_digit hh0, getnum_two hm0 hm1, getnum_two hd0 hd1, getnum_two hh0 hh1,
    getnum_two hi0 hi1, getnum_two hs0 hs1, fractionalSecond]
  simp only [isRealDateTime, numAt, List.drop, List.take, List.foldl, Nat.zero_mul, Nat.zero_add]
  generalize ((digitVal y0 * 10 + digitVal y1) * 10 + digitVal y2) * 10 + digitVal y3 = year
  generalize digitVal m0 * 10 + digitVal m1 = month
  generalize digitVal d0 * 10 + digitVal d1 = day
  generalize digitVal h0 * 10 + digitVal h1 = hour
  generalize digitVal i0 * 10 + digitVal i1 = minute
  generalize digitVal s0 * 10 + digitVal s1 = second
  by_cases hm : 1 ≤ month ∧ month ≤ 12
  · rw [daysIn_eq_daysInMonth month year hm.1 hm.2]
    generalize daysInMonth year month = dim
    simp only [Bool.not_true, Bool.false_eq_true, if_false, List.isEmpty_nil, Bool.or_eq_true,
      decide_eq_true_eq]
    split_ifs <;> first | rfl | (exfalso; omega)
  · simp only [Bool.not_true, Bool.false_eq_true, if_false, List.isEmpty_nil, Bool.or_eq_true,
      decide_eq_true_eq]
    split_ifs <;> first | rfl | (exfalso; omega)

/-! ## The metrics map -/

theorem get_modify (m : Metrics) (k k2 : List Char) (f : ErrorMetric → ErrorMetric) :
    (m.modify k f).get k2 = if k2 = k then (m.get k).map f else m.get k2 := by
  induction m with
  | nil => simp [Metrics.modify, Metrics.get]
  | cons p m ih =>
    obtain ⟨a, v⟩ := p
    by_cases hak : a = k
    · subst hak
      by_cases h2 : k2 = a
      · subst h2; simp [Metrics.modify, Metrics.get]
      · have h3 : ¬ a = k2 := fun e => h2 e.symm
        simp [Metrics.modify, Metrics.get, h2, h3]
    · by_cases h2 : k2 = k
      · subst h2
        simp [Metrics.modify, Metrics.get, hak, ih]
      · simp only [Metrics.modify, hak, if_false, Metrics.get, ih, h2]

theorem get_append (m r : Metrics) (k : List Char) :
    Metrics.get (m ++ r) k = match m.get k with
      | some e => some e
      | none => r.get k := by
  induction m with
  | nil => simp [Metrics.get]
  | cons p m ih =>
    obtain ⟨a, v⟩ := p
    by_cases hak : a = k
    · simp [Metrics.get, hak]
    · simp [Metrics.get, hak, ih]

theorem modify_modify (m : Metrics) (k : List Char) (f g : ErrorMetric → ErrorMetric) :
    (m.modify k f).modify k g = m.modify k (fun e => g (f e)) := by
  induction m with
  | nil => simp [Metrics.modify]
  | cons p m ih =>
    obtain ⟨a, v⟩ := p
    by_cases hak : a = k
    · simp [Metrics.modify, hak]
    · simp [Metrics.modify, hak, ih]

theorem modify_append_of_absent (m r : Metrics) (k : List Char)
    (f : ErrorMetric → ErrorMetric) (h : m.get k = none) :
    Metrics.modify (m ++ r) k f = m ++ Metrics.modify r k f := by
  induction m with
  | nil => simp
  | cons p m ih =>
    obtain ⟨a, v⟩ := p
    by_cases hak : a = k
    · simp [Metrics.get, hak] at h
    · simp only [Metrics.get, hak, if_false] at h
      simp [Metrics.modify, hak, ih h]

/-- The three statements of `record` together: an existing entry gets one more occurrence;
an absent key gets a new entry holding exactly this occurrence. -/
theorem record_eq (m : Metrics) (k : List Char) (t : Time) :
    record m k t
      = if (m.get k).isSome then m.modify k (bump t) else m ++ [(k, ⟨1, [t]⟩)] := by
  unfold record
  simp only [modify_modify]
  by_cases h : (m.get k).isSome = true
  · simp only [h, if_true]
    rfl
  · have h2 : m.get k = none := by simpa using h
    simp only [h, Bool.false_eq_true, if_false, Metrics.insertNew]
    rw [modify_append_of_absent m _ k _ h2]
    simp [Metrics.modify]

theorem get_record (m : Metrics) (k k2 : List Char) (t : Time) :
    (record m k t).get k2
      = if k2 = k then
          (match m.get k with
            | some e => some (bump t e)
            | none => some ⟨1, [t]⟩)
        else m.get k2 := by
  rw [record_eq]
  cases hg : m.get k with
  | some e =>
    simp only [hg, Option.isSome_some, if_true, get_modify, Option.map_some']
  | none =>
    simp only [Option.isSome_none, Bool.false_eq_true, if_false, get_append]
    by_cases h2 : k2 = k
    · subst h2; simp [hg, Metrics.get]
    · have h3 : ¬ k = k2 := fun e => h2 e.symm
      simp only [h2, if_false, Metrics.get, h3]
      cases m.get k2 <;> rfl

theorem scanLoop_append (tb : CaseTables) (xs ys : List (List Char)) :
    scanLoop tb (xs ++ ys) = ys.foldl (processLine tb) (scanLoop tb xs) := by
  simp [scanLoop, List.foldl_append]

theorem scanLoop_concat (tb : CaseTables) (xs : List (List Char)) (l : List Char) :
    scanLoop tb (xs ++ [l]) = processLine tb (scanLoop tb xs) l := by
  simp [scanLoop, List.foldl_append]

/-- The loop body in terms of the label and the timestamp of the line. -/
theorem processLine_eq (tb : CaseTables) (m : Metrics) (line : List Char) :
    processLine tb m line
      = if isErrorLine line then
          (match timestampOf line with
            | none => m
            | some t => record m (labelOf tb line) t)
        else m := rfl

theorem get_scanLoop (tb : CaseTables) (lines : List (List Char)) (L : List Char) :
    (scanLoop tb lines).get L
      = if occurrences tb L lines = [] then none
        else some ⟨(occurrences tb L lines).length, occurrences tb L lines⟩ := by
  induction lines using List.reverseRecOn with
  | nil => simp [scanLoop, occurrences, Metrics.get]
  | append_singleton xs l ih =>
    rw [scanLoop_concat, processLine_eq]
    have hocc : occurrences tb L (xs ++ [l]) = occurrences tb L xs ++
        (match (if isErrorLine l && decide (labelOf tb l = L) then timestampOf l else none) with
          | some t => [t]
          | none => []) := by
      simp only [occurrences, List.filterMap_append, List.filterMap_cons, List.filterMap_nil]
      cases (if isErrorLine l && decide (labelOf tb l = L) then timestampOf l else none) <;> rfl
    rw [hocc]
    by_cases he : isErrorLine l = true
    · cases ht : timestampOf l with
      | none => simp [he, ih]
      | some t =>
        simp only [he, if_true, Bool.true_and, get_record]
        by_cases hL : L = labelOf tb l
        · subst hL
          simp only [if_true, decide_True, ih]
          by_cases ho : occurrences tb (labelOf tb l) xs = []
          · simp [ho]
          · simp [ho, bump]
        · have hL2 : ¬ labelOf tb l = L := fun e => hL e.symm
          simp [hL, hL2, ih]
    · simp [he, ih]

theorem bump_ne (t : Time) (e : ErrorMetric) : bump t e ≠ e := by
  intro h
  have := congrArg ErrorMetric.Count h
  simp [bump] at this

/-- Which keys a recorded occurrence changes: exactly its own. -/
theorem get_record_ne_iff (m : Metrics) (k k2 : List Char) (t : Time) :
    (record m k t).get k2 ≠ m.get k2 ↔ k2 = k := by
  rw [get_record]
  by_cases h : k2 = k
  · subst h
    simp only [if_true, ne_eq, iff_true]
    cases hg : m.get k2 with
    | none => simp
    | some e =>
      simp only [Option.some.injEq]
      exact bump_ne t e
  · simp [h]

/-- A line is recorded exactly when the error pattern matches it and its timestamp parses;
the key that changes is then the label of the line. -/
theorem recordsLine_iff (tb : CaseTables) (m : Metrics) (line : List Char) :
    recordsLine tb m line ↔ (isErrorLine line = true ∧ (timestampOf line).isSome = true) := by
  unfold recordsLine
  rw [processLine_eq]
  by_cases he : isErrorLine line = true
  · cases ht : timestampOf line with
    | none => simp [he]
    | some t =>
      simp only [he, if_true, Option.isSome_some, and_self, iff_true]
      exact ⟨labelOf tb line, (get_record_ne_iff m _ _ t).mpr rfl⟩
  · simp [he]

theorem changed_key_iff (tb : CaseTables) (m : Metrics) (line : List Char)
    (h : recordsLine tb m line) (key : List Char) :
    (processLine tb m line).get key ≠ m.get key ↔ key = labelOf tb line := by
  obtain ⟨he, ht⟩ := (recordsLine_iff tb m line).mp h
  rw [processLine_eq]
  cases hts : timestampOf line with
  | none => rw [hts] at ht; simp at ht
  | some t =>
    simp only [he, if_true]
    exact get_record_ne_iff m _ _ t

theorem processLine_of_unparsable (tb : CaseTables) (m : Metrics) (b : List Char)
    (h : timestampOf b = none) : processLine tb m b = m := by
  rw [processLine_eq, h]
  split_ifs <;> rfl

theorem mem_modify (m : Metrics) (k : List Char) (f : ErrorMetric → ErrorMetric)
    (p : List Char × ErrorMetric) (h : p ∈ m.modify k f) :
    p ∈ m ∨ ∃ v, (k, v) ∈ m ∧ p = (k, f v) := by
  induction m with
  | nil => simp [Metrics.modify] at h
  | cons q m ih =>
    obtain ⟨a, v⟩ := q
    by_cases hak : a = k
    · subst hak
      simp only [Metrics.modify, if_true, List.mem_cons] at h
      rcases h with h | h
      · right; exact ⟨v, List.mem_cons_self _ _, h⟩
      · left; exact List.mem_cons_of_mem _ h
    · simp only [Metrics.modify, hak, if_false, List.mem_cons] at h
      rcases h with h | h
      · left; rw [h]; exact List.mem_cons_self _ _
      · rcases ih h with h2 | ⟨w, hw, e⟩
        · left; exact List.mem_cons_of_mem _ h2
        · right; exact ⟨w, List.mem_cons_of_mem _ hw, e⟩

/-- The invariant of one entry: `Count` is the number of timestamps and is at least one. -/
theorem record_invariant (m : Metrics) (k : List Char) (t : Time)
    (hm : ∀ p ∈ m, p.2.Count = p.2.Timestamps.length ∧ 1 ≤ p.2.Count) :
    ∀ p ∈ record m k t, p.2.Count = p.2.Timestamps.length ∧ 1 ≤ p.2.Count := by
  intro p hp
  rw [record_eq] at hp
  by_cases h : (m.get k).isSome = true
  · rw [if_pos h] at hp
    rcases mem_modify m k _ p hp with h2 | ⟨v, hv, e⟩
    · exact hm p h2
    · have hv2 := hm (k, v) hv
      simp only at hv2
      subst e
      simp only [bump, List.length_append, List.length_singleton]
      omega
  · rw [if_neg h] at hp
    rcases List.mem_append.mp hp with h2 | h2
    · exact hm p h2
    · simp only [List.mem_singleton] at h2
      subst h2
      simp

theorem processLine_invariant (tb : CaseTables) (m : Metrics) (line : List Char)
    (hm : ∀ p ∈ m, p.2.Count = p.2.Timestamps.length ∧ 1 ≤ p.2.Count) :
    ∀ p ∈ processLine tb m line, p.2.Count = p.2.Timestamps.length ∧ 1 ≤ p.2.Count := by
  rw [processLine_eq]
  split_ifs
  · cases timestampOf line with
    | none => exact hm
    | some t => exact record_invariant m _ t hm
  · exact hm

theorem scanLoop_invariant (tb : CaseTables) (lines : List (List Char)) :
    ∀ p ∈ scanLoop tb lines, p.2.Count = p.2.Timestamps.length ∧ 1 ≤ p.2.Count := by
  induction lines using List.reverseRecOn with
  | nil => intro p hp; simp [scanLoop] at hp
  | append_singleton xs l ih =>
    rw [scanLoop_concat]
    exact processLine_invariant tb _ l ih

/-- An entry is never deleted and never shrinks. -/
theorem processLine_monotone (tb : CaseTables) (m : Metrics) (line : List Char)
    (k : List Char) (e : ErrorMetric) (h : m.get k = some e) :
    ∃ e2, (processLine tb m line).get k = some e2 ∧ e.Count ≤ e2.Count ∧
      e.Timestamps <+: e2.Timestamps := by
  rw [processLine_eq]
  by_cases he : isErrorLine line = true
  · cases ht : timestampOf line with
    | none => simp only [he, if_true]; exact ⟨e, h, le_refl _, List.prefix_refl _⟩
    | some t =>
      simp only [he, if_true, get_record]
      by_cases hk : k = labelOf tb line
      · subst hk
        simp only [if_true, h]
        exact ⟨bump t e, rfl, by simp [bump], by simp [bump]⟩
      · simp only [hk, if_false]
        exact ⟨e, h, le_refl _, List.prefix_refl _⟩
  · simp only [he, Bool.false_eq_true, if_false]
    exact ⟨e, h, le_refl _, List.prefix_refl _⟩

/-- Keys of the map are pairwise different. -/
theorem get_eq_none_iff (m : Metrics) (k : List Char) :
    m.get k = none ↔ k ∉ m.map Prod.fst := by
  induction m with
  | nil => simp [Metrics.get]
  | cons q m ih =>
    obtain ⟨a, v⟩ := q
    by_cases hak : a = k
    · subst hak
      simp only [Metrics.get, if_true, List.map_cons, List.mem_cons, true_or, not_true_eq_false,
        iff_false]
      exact fun h => Option.noConfusion h
    · have h2 : ¬ k = a := fun e => hak e.symm
      simp only [Metrics.get, hak, if_false, ih, List.map_cons, List.mem_cons, h2, false_or]

theorem map_fst_modify (m : Metrics) (k : List Char) (f : ErrorMetric → ErrorMetric) :
    (m.modify k f).map Prod.fst = m.map Prod.fst := by
  induction m with
  | nil => rfl
  | cons q m ih =>
    obtain ⟨a, v⟩ := q
    by_cases hak : a = k
    · simp [Metrics.modify, hak]
    · simp [Metrics.modify, hak, ih]

theorem scanLoop_keys_nodup (tb : CaseTables) (lines : List (List Char)) :
    ((scanLoop tb lines).map Prod.fst).Nodup := by
  induction lines using List.reverseRecOn with
  | nil => simp [scanLoop]
  | append_singleton xs l ih =>
    rw [scanLoop_concat, processLine_eq]
    split_ifs
    · cases timestampOf l with
      | none => exact ih
      | some t =>
        simp only [record_eq]
        by_cases h : ((scanLoop tb xs).get (labelOf tb l)).isSome = true
        · rw [if_pos h, map_fst_modify]; exact ih
        · rw [if_neg h]
          have h2 : (scanLoop tb xs).get (labelOf tb l) = none := by simpa using h
          rw [get_eq_none_iff] at h2
          rw [List.map_append, List.nodup_append]
          refine ⟨ih, by simp, ?_⟩
          intro a ha hb
          simp only [List.map_cons, List.map_nil, List.mem_singleton] at hb
          subst hb
          exact h2 ha
    · exact ih

/-! ## The claims -/

theorem length_occurrences (tb : CaseTables) (L : List Char) (lines : List (List Char)) :
    (occurrences tb L lines).length
      = (lines.filter (fun l =>
          isErrorLine l && decide (labelOf tb l = L) && (timestampOf l).isSome)).length := by
  induction lines with
  | nil => rfl
  | cons l ls ih =>
    simp only [occurrences, List.filterMap_cons, List.filter_cons] at ih ⊢
    by_cases hc : (isErrorLine l && decide (labelOf tb l = L)) = true
    · cases ht : timestampOf l with
      | none => simp only [hc, ht, if_true, Bool.true_and, Option.isSome_none,
          Bool.false_eq_true, if_false]; exact ih
      | some t => simp only [hc, ht, if_true, Bool.true_and, Option.isSome_some,
          List.length_cons]; rw [ih]
    · simp only [hc, Bool.false_eq_true, if_false, Bool.false_and]; exact ih

theorem occurrences_ne_nil_iff (tb : CaseTables) (L : List Char) (lines : List (List Char)) :
    occurrences tb L lines ≠ [] ↔
      ∃ l ∈ lines, isErrorLine l = true ∧ labelOf tb l = L ∧ (timestampOf l).isSome = true := by
  rw [← List.length_pos, length_occurrences, List.length_pos]
  constructor
  · intro h
    obtain ⟨l, hl⟩ := List.exists_mem_of_ne_nil _ h
    rw [List.mem_filter] at hl
    simp only [Bool.and_eq_true, decide_eq_true_eq] at hl
    exact ⟨l, hl.1, hl.2.1.1, hl.2.1.2, hl.2.2⟩
  · rintro ⟨l, hl, h1, h2, h3⟩
    apply List.ne_nil_of_mem (a := l)
    rw [List.mem_filter]
    simp only [Bool.and_eq_true, decide_eq_true_eq]
    exact ⟨hl, ⟨h1, h2⟩, h3⟩

/-- C1: on lines read without I/O error `parseLogFile` returns a table that has an entry
for label `L` exactly when some line is an error line with label `L` whose leading
timestamp parses; the entry's `Count` is then the number of such lines and its `Timestamps`
is the list of their parsed timestamps in file order.  On the two lines of scenario 1 the
table is the single entry `ERROR DISK FULL` with `Count` 2 and the timestamps 10:00:00 and
10:05:00 in that order. -/
theorem C1_table_contents (tb : CaseTables) (lines : List (List Char)) (L : List Char) :
    ∃ table, parseLogFile tb (.opened lines false) = .ok table ∧
      ((table.get L).isSome = true ↔
        ∃ l ∈ lines, isErrorLine l = true ∧ labelOf tb l = L ∧ (timestampOf l).isSome = true) ∧
      (∀ e, table.get L = some e →
        e.Count = (lines.filter (fun l =>
          isErrorLine l && decide (labelOf tb l = L) && (timestampOf l).isSome)).length ∧
        e.Timestamps = lines.filterMap (fun l =>
          if isErrorLine l && decide (labelOf tb l = L) then timestampOf l else none)) ∧
      parseLogFile tb (.opened [scenario1a, scenario1b] false)
        = .ok [("ERROR DISK FULL".toList,
            ⟨2, [⟨2024, 1, 1, 10, 0, 0, 0⟩, ⟨2024, 1, 1, 10, 5, 0, 0⟩]⟩)] := by
  refine ⟨scanLoop tb lines, rfl, ?_, ?_, rfl⟩
  · rw [← occurrences_ne_nil_iff, get_scanLoop]
    by_cases ho : occurrences tb L lines = []
    · simp [ho]
    · simp [ho]
  · intro e he
    rw [get_scanLoop] at he
    by_cases ho : occurrences tb L lines = []
    · simp [ho] at he
    · simp only [ho, if_false, Option.some.injEq] at he
      subst he
      exact ⟨length_occurrences tb L lines, rfl⟩

/-- C2, as stated, fails: the line `2024-01-01 10:00:00 ERROR` begins with a valid timestamp
and contains `ERROR`, and so does `2024-01-01 10:00:00 ERROR: disk full`, yet neither is
recorded, whatever the table and the case tables are: the pattern asks for a space right
after the keyword. -/
theorem C2_counterexample :
    (timestampOf "2024-01-01 10:00:00 ERROR".toList).isSome = true ∧
    (∃ pre t, "2024-01-01 10:00:00 ERROR".toList = pre ++ t ∧ startsWithKeyword t = true) ∧
    (∀ tb metrics, ¬ recordsLine tb metrics "2024-01-01 10:00:00 ERROR".toList) ∧
    (timestampOf "2024-01-01 10:00:00 ERROR: disk full".toList).isSome = true ∧
    (∃ pre t, "2024-01-01 10:00:00 ERROR: disk full".toList = pre ++ t ∧
      startsWithKeyword t = true) ∧
    (∀ tb metrics, ¬ recordsLine tb metrics "2024-01-01 10:00:00 ERROR: disk full".toList) := by
  refine ⟨by decide, ⟨"2024-01-01 10:00:00 ".toList, "ERROR".toList, by decide, by decide⟩,
    ?_, by decide,
    ⟨"2024-01-01 10:00:00 ".toList, "ERROR: disk full".toList, by decide, by decide⟩, ?_⟩
  · intro tb metrics h
    have := ((recordsLine_iff tb metrics _).mp h).1
    revert this
    decide
  · intro tb metrics h
    have := ((recordsLine_iff tb metrics _).mp h).1
    revert this
    decide

/-- C2, amended: a line that begins with a valid timestamp is recorded if and only if
somewhere in the line stands, compared case-insensitively, `ERROR` or `EXCEPTION`
immediately followed by a space; what follows that space plays no part. -/
theorem C2_error_line_iff (tb : CaseTables) (metrics : Metrics) (line : List Char)
    (hts : (timestampOf line).isSome = true) :
    recordsLine tb metrics line ↔
      ∃ pre t, line = pre ++ t ∧ startsWithKeywordSpace t = true := by
  rw [recordsLine_iff, isErrorLine, MatchString_errorPattern, leftmostSuffix_isSome_iff]
  simp [hts]

/-- Instance of C2 at the line `2024-01-01 10:00:00 ERROR disk full`. -/
theorem C2_error_line_iff_witness :
    (timestampOf scenario1a).isSome = true ∧
    (recordsLine asciiTables [] scenario1a ↔
      ∃ pre t, scenario1a = pre ++ t ∧ startsWithKeywordSpace t = true) :=
  ⟨by decide, C2_error_line_iff asciiTables [] scenario1a (by decide)⟩

/-- C3, as stated, fails: in `2024-01-01 10:00:00 ERRORS: ERROR x` the leftmost occurrence
of a keyword starts the suffix `ERRORS: ERROR x`, but the line is recorded under
`ERROR X`, not under the upper case of that suffix. -/
theorem C3_counterexample :
    leftmostSuffix startsWithKeyword "2024-01-01 10:00:00 ERRORS: ERROR x".toList
      = some "ERRORS: ERROR x".toList ∧
    ∀ tb, scanLoop tb ["2024-01-01 10:00:00 ERRORS: ERROR x".toList]
        = [("ERROR X".toList, ⟨1, [⟨2024, 1, 1, 10, 0, 0, 0⟩]⟩)] ∧
      ToUpper tb "ERRORS: ERROR x".toList ≠ "ERROR X".toList := by
  refine ⟨by decide, fun tb => ⟨rfl, ?_⟩⟩
  have h : ToUpper tb "ERRORS: ERROR x".toList = "ERRORS: ERROR X".toList := rfl
  rw [h]
  decide

/-- C3, amended: a recorded line (without a line feed, as every line the scanner yields)
is recorded under the upper case (`strings.ToUpper`) of the suffix of the line that starts at
the leftmost occurrence of `ERROR` or `EXCEPTION` (compared case-insensitively) that is
immediately followed by a space, and runs to the end of the line; that key is the only
one whose entry changes. -/
theorem C3_label_is_upper_suffix (tb : CaseTables) (metrics : Metrics) (line : List Char)
    (hnl : '\n' ∉ line) (hrec : recordsLine tb metrics line) :
    ∃ pre t, line = pre ++ t ∧ startsWithKeywordSpace t = true ∧
      (∀ pre2 t2, line = pre2 ++ t2 → startsWithKeywordSpace t2 = true →
        pre.length ≤ pre2.length) ∧
      ∀ key, (processLine tb metrics line).get key ≠ metrics.get key ↔ key = ToUpper tb t := by
  have he := ((recordsLine_iff tb metrics line).mp hrec).1
  rw [isErrorLine, MatchString_errorPattern] at he
  obtain ⟨t, ht⟩ := Option.isSome_iff_exists.mp he
  obtain ⟨pre, e, hP, hmin⟩ := leftmostSuffix_eq_some _ _ _ ht
  refine ⟨pre, t, e, hP, hmin, ?_⟩
  intro key
  rw [changed_key_iff tb metrics line hrec key, labelOf, FindString_errorPattern line hnl, ht]
  rfl

/-- Instance of C3 at the line `2024-01-01 10:00:00 ERRORS: ERROR x`. -/
theorem C3_label_is_upper_suffix_witness :
    '\n' ∉ "2024-01-01 10:00:00 ERRORS: ERROR x".toList ∧
    recordsLine asciiTables [] "2024-01-01 10:00:00 ERRORS: ERROR x".toList ∧
    ∃ pre t, "2024-01-01 10:00:00 ERRORS: ERROR x".toList = pre ++ t ∧
      startsWithKeywordSpace t = true ∧
      (∀ pre2 t2, "2024-01-01 10:00:00 ERRORS: ERROR x".toList = pre2 ++ t2 →
        startsWithKeywordSpace t2 = true → pre.length ≤ pre2.length) ∧
      ∀ key, (processLine asciiTables [] "2024-01-01 10:00:00 ERRORS: ERROR x".toList).get key
          ≠ Metrics.get [] key ↔ key = ToUpper asciiTables t :=
  ⟨by decide, (recordsLine_iff _ _ _).mpr (by decide),
    C3_label_is_upper_suffix asciiTables [] _ (by decide)
      ((recordsLine_iff _ _ _).mpr (by decide))⟩

/-- C4: a line whose leading timestamp fails to parse has no effect: with such a line `b`
anywhere in the input, `parseLogFile` returns what it returns without it (the lines after
`b` are processed as usual), and the line leaves any table as it is. -/
theorem C4_unparsable_line_skipped (tb : CaseTables) (xs ys : List (List Char))
    (b : List Char) (readFails : Bool) (hb : timestampOf b = none) :
    parseLogFile tb (.opened (xs ++ [b] ++ ys) readFails)
      = parseLogFile tb (.opened (xs ++ ys) readFails) ∧
    ∀ metrics, processLine tb metrics b = metrics := by
  refine ⟨?_, fun m => processLine_of_unparsable tb m b hb⟩
  simp only [parseLogFile, scanLoop_append, List.foldl_cons, List.foldl_nil,
    processLine_of_unparsable tb _ b hb]

/-- Instance of C4 at scenario 2: the timestamp of `ERROR disk full` does not parse, and a
file holding only that line gives a table with no entries; the same line between the two
lines of scenario 1 changes nothing. -/
theorem C4_unparsable_line_skipped_witness :
    timestampOf scenario2 = none ∧
    parseLogFile asciiTables (.opened [scenario2] false) = .ok [] ∧
    parseLogFile asciiTables (.opened ([scenario1a] ++ [scenario2] ++ [scenario1b]) false)
      = parseLogFile asciiTables (.opened ([scenario1a] ++ [scenario1b]) false) :=
  ⟨by decide,
    (C4_unparsable_line_skipped asciiTables [] [] scenario2 false (by decide)).1,
    (C4_unparsable_line_skipped asciiTables [scenario1a] [scenario1b] scenario2 false
      (by decide)).1⟩

/-- C5: after any prefix of the input lines, hence also in the table `parseLogFile`
returns, every entry has `Count` equal to the length of `Timestamps` and `Count` at least
one; and processing one more line never deletes an entry nor lowers its `Count`, it keeps
the timestamps already there as a prefix. -/
theorem C5_count_invariant (tb : CaseTables) (lines : List (List Char)) (n : Nat)
    (p : List Char × ErrorMetric) (hp : p ∈ scanLoop tb (lines.take n)) :
    (p.2.Count = p.2.Timestamps.length ∧ 1 ≤ p.2.Count) ∧
    ∀ (line key : List Char) (e : ErrorMetric),
      (scanLoop tb (lines.take n)).get key = some e →
      ∃ e2, (processLine tb (scanLoop tb (lines.take n)) line).get key = some e2 ∧
        e.Count ≤ e2.Count ∧ e.Timestamps <+: e2.Timestamps :=
  ⟨scanLoop_invariant tb (lines.take n) p hp,
    fun line key e h => processLine_monotone tb _ line key e h⟩

/-- Instance of C5: the entry of scenario 1 after both lines. -/
theorem C5_count_invariant_witness :
    (("ERROR DISK FULL".toList,
        (⟨2, [⟨2024, 1, 1, 10, 0, 0, 0⟩, ⟨2024, 1, 1, 10, 5, 0, 0⟩]⟩ : ErrorMetric))
      ∈ scanLoop asciiTables ([scenario1a, scenario1b].take 2)) ∧
    (2 = [(⟨2024, 1, 1, 10, 0, 0, 0⟩ : Time), ⟨2024, 1, 1, 10, 5, 0, 0⟩].length ∧ 1 ≤ 2) :=
  ⟨by decide, (C5_count_invariant asciiTables [scenario1a, scenario1b] 2
    ("ERROR DISK FULL".toList, ⟨2, [⟨2024, 1, 1, 10, 0, 0, 0⟩, ⟨2024, 1, 1, 10, 5, 0, 0⟩]⟩)
    (by decide)).1⟩

/-- C6, as stated, fails: on the two lines of scenario 3 the returned table is never a
single entry, whatever the case tables are. -/
theorem C6_counterexample :
    ¬ ∃ tb key entry,
      parseLogFile tb (.opened [scenario3a, scenario3b] false) = .ok [(key, entry)] := by
  rintro ⟨tb, key, entry, h⟩
  have h2 : parseLogFile tb (.opened [scenario3a, scenario3b] false)
      = .ok [("EXCEPTION NULLPOINTER".toList, ⟨1, [⟨2024, 1, 1, 10, 0, 0, 0⟩]⟩),
          ("ERROR NULLPOINTER".toList, ⟨1, [⟨2024, 1, 1, 10, 1, 0, 0⟩]⟩)] := rfl
  rw [h2] at h
  simp at h

/-- C6, amended: on the two lines of scenario 3 the keyword is part of the label, so the
returned table has exactly two entries: `EXCEPTION NULLPOINTER` with `Count` 1 and the
timestamp 10:00:00, and `ERROR NULLPOINTER` with `Count` 1 and the timestamp 10:01:00. -/
theorem C6_scenario3_two_entries (tb : CaseTables) :
    parseLogFile tb (.opened [scenario3a, scenario3b] false)
      = .ok [("EXCEPTION NULLPOINTER".toList, ⟨1, [⟨2024, 1, 1, 10, 0, 0, 0⟩]⟩),
          ("ERROR NULLPOINTER".toList, ⟨1, [⟨2024, 1, 1, 10, 1, 0, 0⟩]⟩)] := rfl

/-- C7, as stated, fails: the line `2024-01-01 10:00:00 ERROR open /var/log/app.log` is
recorded under the key `ERROR OPEN /VAR/LOG/APP.LOG`, and the file name `generateGraph`
computes for that key is `error open /var/log/app.log_graph.png`, which contains `/`. -/
theorem C7_counterexample :
    (∀ tb, scanLoop tb ["2024-01-01 10:00:00 ERROR open /var/log/app.log".toList]
        = [("ERROR OPEN /VAR/LOG/APP.LOG".toList, ⟨1, [⟨2024, 1, 1, 10, 0, 0, 0⟩]⟩)]) ∧
    (∀ tb, generateGraph_filename tb "ERROR OPEN /VAR/LOG/APP.LOG".toList
        = "error open /var/log/app.log_graph.png".toList) ∧
    (∀ tb, '/' ∈ generateGraph_filename tb "ERROR OPEN /VAR/LOG/APP.LOG".toList) := by
  have h : ∀ tb, generateGraph_filename tb "ERROR OPEN /VAR/LOG/APP.LOG".toList
      = "error open /var/log/app.log_graph.png".toList := fun _ => rfl
  refine ⟨fun _ => rfl, h, fun tb => ?_⟩
  rw [h tb]
  decide

/-- C7, amended: the chart file name is `strings.ToLower` of the label followed by
`_graph.png` and nothing else is done to the label: the name contains `/` exactly when
the lower-cased label does, and for a label made of ASCII only exactly when the label
does. -/
theorem C7_filename_is_lowercase_label (tb : CaseTables) (label : List Char) :
    generateGraph_filename tb label = ToLower tb label ++ "_graph.png".toList ∧
    ('/' ∈ generateGraph_filename tb label ↔ '/' ∈ ToLower tb label) ∧
    (label.all isASCII = true →
      ('/' ∈ generateGraph_filename tb label ↔ '/' ∈ label)) := by
  have hsuf : '/' ∉ "_graph.png".toList := by decide
  have h1 : '/' ∈ generateGraph_filename tb label ↔ '/' ∈ ToLower tb label := by
    simp only [generateGraph_filename, List.mem_append, hsuf, or_false]
  refine ⟨rfl, h1, ?_⟩
  intro hascii
  rw [h1, ToLower, if_pos hascii, List.mem_map]
  constructor
  · rintro ⟨c, hc, e⟩
    have e2 := congrArg Char.toNat e
    rw [toLower_toNat] at e2
    have e3 : ('/' : Char).toNat = 47 := rfl
    rw [e3] at e2
    have : c = '/' := by
      apply eq_of_toNat_eq
      rw [e3]
      split at e2 <;> omega
    rw [← this]; exact hc
  · intro h
    exact ⟨'/', h, rfl⟩

/-- Instance of C7 at the label `ERROR OPEN /VAR/LOG/APP.LOG`. -/
theorem C7_filename_is_lowercase_label_witness :
    ("ERROR OPEN /VAR/LOG/APP.LOG".toList.all isASCII = true) ∧
    ('/' ∈ generateGraph_filename asciiTables "ERROR OPEN /VAR/LOG/APP.LOG".toList ↔
      '/' ∈ "ERROR OPEN /VAR/LOG/APP.LOG".toList) :=
  ⟨by decide,
    (C7_filename_is_lowercase_label asciiTables "ERROR OPEN /VAR/LOG/APP.LOG".toList).2.2
      (by decide)⟩

/-- C8: for every label the file name under which `generateGraph` saves the chart equals
the file name `generatePDF` passes as the embedded image, both being the lower-cased label
followed by `_graph.png`. -/
theorem C8_same_filename (tb : CaseTables) (label : List Char) :
    generateGraph_filename tb label = generatePDF_graphFilename tb label ∧
    generatePDF_graphFilename tb label = ToLower tb label ++ "_graph.png".toList :=
  ⟨rfl, rfl⟩

/-- C9: `parseLogFile` returns an error, and then no table, if and only if the open fails
or a read fails, whatever lines came before the failure; when neither fails it returns the
table of the scan, so unparsable timestamps never make it return an error. -/
theorem C9_all_or_nothing (tb : CaseTables) (input : FileInput) :
    ((∃ e, parseLogFile tb input = .error e) ↔
      (input = .openFails ∨ ∃ lines, input = .opened lines true)) ∧
    (∀ lines, parseLogFile tb (.opened lines false) = .ok (scanLoop tb lines)) ∧
    (∀ lines, parseLogFile tb (.opened lines true) = .error .readError) ∧
    parseLogFile tb .openFails = .error .openError := by
  refine ⟨?_, fun _ => rfl, fun _ => rfl, rfl⟩
  cases input with
  | openFails => simp [parseLogFile]
  | opened lines readFails =>
    cases readFails with
    | true => simp [parseLogFile]
    | false => simp [parseLogFile]

/-- C10: an error line is recorded if and only if it begins with `dddd-dd-dd dd:dd:dd`
(ASCII digits and the literal `-`, space and `:`) and those fields denote a real date and
time: month 1 to 12, day 1 to the length of that month in that year, hour 0 to 23, minute
and second 0 to 59; the recorded timestamp then has exactly those fields. -/
theorem C10_timestamp_acceptance (tb : CaseTables) (metrics : Metrics) (line : List Char)
    (herr : isErrorLine line = true) :
    (recordsLine tb metrics line ↔
      (beginsWithTimestampShape line = true ∧ isRealDateTime line = true)) ∧
    timestampOf line = leadingTimestamp line := by
  have hts : timestampOf line = leadingTimestamp line := timeParse_FindString line
  refine ⟨?_, hts⟩
  rw [recordsLine_iff, hts, leadingTimestamp]
  simp only [herr, true_and]
  by_cases h : (beginsWithTimestampShape line && isRealDateTime line) = true
  · rw [if_pos h]
    simpa using h
  · rw [if_neg h]
    simpa using h

/-- Instances of C10: `2024-01-01 10:00:00 ERROR disk full` is recorded, and the error
lines beginning `2024-13-01 10:00:00`, `2023-02-29 10:00:00`, `2024-01-01 24:00:00` and
the error line `ERROR disk full` without a timestamp are not. -/
theorem C10_timestamp_acceptance_witness :
    isErrorLine scenario1a = true ∧
    recordsLine asciiTables [] scenario1a ∧
    ¬ recordsLine asciiTables [] "2024-13-01 10:00:00 ERROR x".toList ∧
    ¬ recordsLine asciiTables [] "2023-02-29 10:00:00 ERROR x".toList ∧
    ¬ recordsLine asciiTables [] "2024-01-01 24:00:00 ERROR x".toList ∧
    ¬ recordsLine asciiTables [] scenario2 :=
  ⟨by decide,
    (C10_timestamp_acceptance asciiTables [] scenario1a (by decide)).1.mpr (by decide),
    fun h => absurd ((C10_timestamp_acceptance asciiTables [] _ (by decide)).1.mp h)
      (by decide),
    fun h => absurd ((C10_timestamp_acceptance asciiTables [] _ (by decide)).1.mp h)
      (by decide),
    fun h => absurd ((C10_timestamp_acceptance asciiTables [] _ (by decide)).1.mp h)
      (by decide),
    fun h => absurd ((C10_timestamp_acceptance asciiTables [] _ (by decide)).1.mp h)
      (by decide)⟩

end LogAnalyzer
